import Mathlib

/-!
# version-check: version extraction, comparison and the check runner

A shallow embedding of `internal/check.go` (the same functions are duplicated
verbatim in `main.go`).

Go strings are modelled by Lean `String`s, that is by their sequence of code
points.  Every separator, keyword and pattern character used by the program
(`.`, `\n`, `v`, the digits, `rsync`, `rsync version`) is ASCII, so splitting,
substring search and the regular expression act on code points exactly as they
act on the UTF-8 bytes.

The Go standard library calls are modelled in the namespaces `Strings`
(package `strings`) and `Regexp` (package `regexp`); running a shell command,
reading the configuration file and the process's standard output are explicit
state (`Proc`) driven by an external `Host`.  Standard output is kept as the
list of the texts written, one entry for each call of `fmt.Printf` or
`fmt.Println`; what a reader of standard output sees is their concatenation,
`Proc.text`.
-/

namespace VersionCheck

/-! ## Package `strings` -/

namespace Strings

/-- First component and remaining components of a text cut at every `sep`. -/
def splitParts (sep : Char) : List Char → List Char × List (List Char)
  | [] => ([], [])
  | c :: cs =>
    let r := splitParts sep cs
    if c = sep then ([], r.1 :: r.2) else (c :: r.1, r.2)

/-- Components of a text cut at every `sep`; never empty. -/
def splitChars (sep : Char) (s : List Char) : List (List Char) :=
  (splitParts sep s).1 :: (splitParts sep s).2

/-- Go `strings.Split(s, sep)` for a separator `sep` of one character:
the substrings between the separators, `[s]` when `sep` does not occur. -/
def Split (s : String) (sep : Char) : List String :=
  (splitChars sep s.data).map String.mk

/-- Substring search on character lists. -/
def containsChars : List Char → List Char → Bool
  | [], sub => sub.isPrefixOf []
  | c :: cs, sub => sub.isPrefixOf (c :: cs) || containsChars cs sub

/-- Go `strings.Contains(s, substr)`. -/
def Contains (s substr : String) : Bool :=
  containsChars s.data substr.data

/-- Go `strings.TrimPrefix(s, pre)`: `s` without the leading `pre`, or `s`
itself when it does not start with `pre`. -/
def TrimPrefix (s pre : String) : String :=
  if pre.data.isPrefixOf s.data then ⟨s.data.drop pre.data.length⟩ else s

/-- Go `unicode.IsSpace`: the Latin-1 spaces `\t \n \v \f \r`, space, U+0085,
U+00A0, and the code points with the Unicode White_Space property. -/
def isSpace (c : Char) : Bool :=
  let n := c.toNat
  (9 ≤ n && n ≤ 13) || n == 32 || n == 0x85 || n == 0xA0 || n == 0x1680 ||
  (0x2000 ≤ n && n ≤ 0x200A) || n == 0x2028 || n == 0x2029 || n == 0x202F ||
  n == 0x205F || n == 0x3000

/-- Go `strings.TrimSpace(s)`: `s` without leading and trailing white space. -/
def TrimSpace (s : String) : String :=
  ⟨((s.data.dropWhile isSpace).reverse.dropWhile isSpace).reverse⟩

end Strings

/-! ## Package `regexp`

Go regular expressions are matched leftmost-first: among the matches starting
at the leftmost possible position, the one a backtracking search finds first
(greedy operators try the longer alternative first).  `Regex.run` lists the
possible remainders of the input in exactly that order. -/

/-- The fragment of regular-expression syntax used by the program. -/
inductive Regex where
  /-- a literal character -/
  | lit (c : Char)
  /-- the Perl class `\d`, which in Go is the ASCII class `[0-9]` -/
  | digit
  /-- concatenation -/
  | cat (a b : Regex)
  /-- greedy `a?` -/
  | quest (a : Regex)
  /-- greedy `a+` -/
  | plus (a : Regex)

namespace Regexp

/-- The ASCII digits, Go's `\d`. -/
def isDigit (c : Char) : Bool := decide ('0' ≤ c) && decide (c ≤ '9')

/-- Greedy iteration of `step`, one or more times: after each iteration first
try another one, then stop.  Every iteration must consume input, so at most
`n` iterations are needed on an input of length `n`. -/
def iterate (step : List Char → List (List Char)) : Nat → List Char → List (List Char)
  | 0, _ => []
  | n + 1, s => (step s).flatMap fun r =>
      (if r.length < s.length then iterate step n r else []) ++ [r]

end Regexp

/-- All ways for `re` to match a prefix of the input, each given by the
unmatched remainder, in the order a backtracking matcher tries them. -/
def Regex.run : Regex → List Char → List (List Char)
  | .lit c, s =>
    match s with
    | x :: xs => if x = c then [xs] else []
    | [] => []
  | .digit, s =>
    match s with
    | x :: xs => if Regexp.isDigit x then [xs] else []
    | [] => []
  | .cat a b, s => (a.run s).flatMap b.run
  | .quest a, s => a.run s ++ [s]
  | .plus a, s => Regexp.iterate a.run s.length s

/-- The bounded repetition `a{0,2}`, which Go compiles as `(a(a)?)?`. -/
def Regex.upTo2 (a : Regex) : Regex := .quest (.cat a (.quest a))

namespace Regexp

/-- The preferred match of `re` at the very start of `s`, if there is one. -/
def matchAt (re : Regex) (s : List Char) : Option (List Char) :=
  (re.run s).head?.map fun r => s.take (s.length - r.length)

/-- The leftmost match of `re` in `s`: the preferred match at the first
position where there is one. -/
def find (re : Regex) : List Char → Option (List Char)
  | [] => matchAt re []
  | c :: t =>
    match matchAt re (c :: t) with
    | some m => some m
    | none => find re t

/-- Go `re.FindString(s)`: the text of the leftmost match of `re` in `s`, the
empty string when there is none. -/
def FindString (re : Regex) (s : String) : String :=
  ⟨(find re s.data).getD []⟩

end Regexp

/-! ## `internal/check.go` -/

/-- The pattern `v?(\d+(\.\d+){0,2})` compiled by `extractVersion`
(capture groups do not affect `FindString`). -/
def versionRe : Regex :=
  .cat (.quest (.lit 'v'))
    (.cat (.plus .digit) (Regex.upTo2 (.cat (.lit '.') (.plus .digit))))

/-- The loop of `extractVersion` over the lines of an rsync output: the first
line containing `rsync version` decides; without such a line the result is
empty. -/
def extractVersion.fromLines : List String → String
  | [] => ""
  | line :: lines =>
    if Strings.Contains line "rsync version" then
      Strings.TrimPrefix (Regexp.FindString versionRe line) "v"
    else
      extractVersion.fromLines lines

/-- Go `extractVersion(command, output)`. -/
def extractVersion (command output : String) : String :=
  if Strings.Contains command "rsync" then
    extractVersion.fromLines (Strings.Split output '\n')
  else
    Strings.TrimPrefix (Regexp.FindString versionRe output) "v"

/-- The loop of `compareVersions`: walk both component slices in step and
leave with `false` at the first differing pair; when one of them is exhausted
the result is `len(parts1) == len(parts2)`. -/
def compareVersions.loop (parts1 parts2 : List String) : List String → List String → Bool
  | a :: r1, b :: r2 => if a ≠ b then false else compareVersions.loop parts1 parts2 r1 r2
  | _, _ => parts1.length == parts2.length

/-- Go `compareVersions(v1, v2)`. -/
def compareVersions (v1 v2 : String) : Bool :=
  let parts1 := Strings.Split v1 '.'
  let parts2 := Strings.Split v2 '.'
  compareVersions.loop parts1 parts2 parts1 parts2

/-- One entry of the configuration: a label, a shell command and the version
its output is expected to show. -/
structure ToolConfig where
  Name : String
  Command : String
  Expect : String

/-- The parsed configuration file. -/
structure Config where
  Tools : List ToolConfig

/-- The outside world as the program sees it: running `sh -c command` yields
the combined output or an execution error (given by its message) and may
change the machine's state; reading and parsing the configuration file yields
a configuration or an error. -/
structure Host (σ : Type) where
  sh : String → σ → Except String String × σ
  readConfig : String → σ → Except String Config

/-- The state of a run: the machine's state, the texts printed to standard
output so far (one entry for each print call) and the commands run so far. -/
structure Proc (σ : Type) where
  env : σ
  stdout : List String
  ran : List String

/-- One call of `fmt.Printf` or `fmt.Println` with the text it writes. -/
def Proc.print {σ : Type} (p : Proc σ) (text : String) : Proc σ :=
  { p with stdout := p.stdout ++ [text] }

/-- The call `exec.Command("sh", "-c", command).CombinedOutput()`. -/
def Host.CombinedOutput {σ : Type} (h : Host σ) (command : String) (p : Proc σ) :
    Except String String × Proc σ :=
  let r := h.sh command p.env
  (r.1, { p with env := r.2, ran := p.ran ++ [command] })

/-- Go `checkVersion(config)`: the verdict and the state after the check. -/
def checkVersion {σ : Type} (h : Host σ) (config : ToolConfig) (p : Proc σ) :
    Bool × Proc σ :=
  match h.CombinedOutput config.Command p with
  | (.error err, p1) =>
    (false, p1.print ("Error executing command for " ++ config.Name ++ ": " ++ err ++ "\n"))
  | (.ok output, p1) =>
    let actualOutput := Strings.TrimSpace output
    let extractedVersion := extractVersion config.Command actualOutput
    if extractedVersion = "" then
      (false, (p1.print (config.Name ++ ": No version found in output\n")).print
        ("Command output: " ++ actualOutput ++ "\n"))
    else if compareVersions extractedVersion config.Expect then
      (true, p1)
    else
      (false, (p1.print (config.Name ++ " version mismatch: Expected '" ++ config.Expect ++
        "', got '" ++ extractedVersion ++ "'\n")).print
        ("Command output: " ++ actualOutput ++ "\n"))

/-- The loop of `RunVersionCheck` over the configured tools, carrying
`allMatch`. -/
def RunVersionCheck.loop {σ : Type} (h : Host σ) :
    List ToolConfig → Bool → Proc σ → Bool × Proc σ
  | [], allMatch, p => (allMatch, p)
  | toolConfig :: tools, allMatch, p =>
    let r := checkVersion h toolConfig p
    RunVersionCheck.loop h tools (if !r.1 then false else allMatch) r.2

/-- Go `RunVersionCheck(cmd, args, cfgFile)`: the exit code when the function
ends the process with `os.Exit` (`none` when it returns normally) and the
final state. -/
def RunVersionCheck {σ : Type} (h : Host σ) (cfgFile : String) (p : Proc σ) :
    Option Nat × Proc σ :=
  match h.readConfig cfgFile p.env with
  | .error err => (some 1, p.print ("Failed to read config file: " ++ err ++ "\n"))
  | .ok config =>
    let r := RunVersionCheck.loop h config.Tools true p
    if r.1 then (none, r.2.print "Versions OK\n") else (some 1, r.2)

/-! ## A direct description of the match of the version pattern

The functions below scan the input by hand; the lemmas further down show that
the backtracking semantics of `versionRe` computes the same thing. -/

namespace Regexp

/-- What is left after the longest run of digits at the start of the input;
`none` when the input does not start with a digit. -/
def digitsRest : List Char → Option (List Char)
  | c :: cs => if isDigit c then some (cs.dropWhile isDigit) else none
  | [] => none

/-- What is left after a `.` followed by the longest run of digits. -/
def groupRest : List Char → Option (List Char)
  | c :: cs => if c = '.' then digitsRest cs else none
  | [] => none

/-- What is left after up to two groups `.digits`, as many as there are. -/
def tailRest (s : List Char) : List Char :=
  match groupRest s with
  | none => s
  | some r => (groupRest r).getD r

/-- What is left after digits and up to two groups `.digits`. -/
def bodyRest (s : List Char) : Option (List Char) :=
  (digitsRest s).map tailRest

/-- What is left after an optional `v` and the version number. -/
def startRest : List Char → Option (List Char)
  | c :: cs => if c = 'v' then (bodyRest cs).or (bodyRest (c :: cs)) else bodyRest (c :: cs)
  | [] => none

/-- The texts `g1`, `g1.g2` and `g1.g2.g3` whose groups are non-empty runs of
ASCII digits. -/
def DottedDigits (t : List Char) : Prop :=
  ∃ (g : List Char) (gs : List (List Char)), g ≠ [] ∧ (∀ c ∈ g, isDigit c = true) ∧
    gs.length ≤ 2 ∧ (∀ p ∈ gs, p ≠ [] ∧ ∀ c ∈ p, isDigit c = true) ∧
    t = g ++ gs.flatMap fun p => '.' :: p

end Regexp

/-! ## Vocabulary of the specification -/

/-- A canonical version token: cut at the dots it has one to three parts, each
a non-empty run of ASCII digits. -/
def isVersionToken (s : String) : Bool :=
  decide ((Strings.Split s '.').length ≤ 3) &&
    (Strings.Split s '.').all fun part => !part.data.isEmpty && part.data.all Regexp.isDigit

/-- The text begins with an ASCII digit. -/
def startsWithDigit (s : String) : Bool :=
  match s.data with
  | c :: _ => Regexp.isDigit c
  | [] => false

/-- The text begins with a `.` that is followed by an ASCII digit. -/
def startsWithDotDigit (s : String) : Bool :=
  match s.data with
  | c :: d :: _ => c == '.' && Regexp.isDigit d
  | _ => false

/-- The verdicts of `checkVersion` on the given tools, one after the other,
each check starting in the state the previous one left, and the state after
the last check. -/
def checkEach {σ : Type} (h : Host σ) : List ToolConfig → Proc σ → List Bool × Proc σ
  | [], p => ([], p)
  | tool :: tools, p =>
    let r := checkVersion h tool p
    let rs := checkEach h tools r.2
    (r.1 :: rs.1, rs.2)

/-- A host for the examples: two of the commands of the repository's tests
succeed with the text `echo` prints, every other command fails to run, and the
configuration file lists the given tools. -/
def exampleHost (tools : List ToolConfig) : Host Unit where
  sh := fun command _ =>
    if command = "echo 'FullVersion 1.22.3'" then (.ok "FullVersion 1.22.3\n", ())
    else if command = "echo 'Tool has no version'" then (.ok "Tool has no version\n", ())
    else (.error "exit status 127", ())
  readConfig := fun _ _ => .ok ⟨tools⟩

/-- The bytes on standard output: the texts written, one after the other. -/
def Proc.text {σ : Type} (p : Proc σ) : String :=
  String.join p.stdout

/-- A host whose commands all succeed with an output of two lines, the second
of which reads `Versions OK`; the configuration file lists the given tools. -/
def quotingHost (tools : List ToolConfig) : Host Unit where
  sh := fun _ _ => (.ok "a\nVersions OK\n", ())
  readConfig := fun _ _ => .ok ⟨tools⟩

/-! ## Sanity checks against the repository's tests -/

example : extractVersion "echo" "Tool version 1.22.3" = "1.22.3" := by decide
example : extractVersion "echo" "Tool v1.22" = "1.22" := by decide
example : extractVersion "echo" "Tool (v4.5.6) [built 2023-05-01]" = "4.5.6" := by decide
example : extractVersion "echo" "Tool has no version" = "" := by decide
example : extractVersion "rsync"
    "openrsync: protocol version 29\nrsync version 2.6.9 compatible" = "2.6.9" := by decide
example : compareVersions "1.22.3" "1.22.3" = true := by decide
example : compareVersions "1.22" "1.22.3" = false := by decide
example : compareVersions "1.22.4" "1.22.3" = false := by decide

/-! ## Lemmas on `strings.Split` -/

namespace Strings

theorem splitParts_join (sep : Char) (s : List Char) :
    (splitParts sep s).1 ++ (splitParts sep s).2.flatMap (fun part => sep :: part) = s := by
  induction s with
  | nil => rfl
  | cons c cs ih =>
    by_cases hc : c = sep
    · simp only [splitParts, hc, if_true, List.nil_append, List.flatMap_cons, List.cons_append]
      rw [ih]
    · simp only [splitParts, hc, if_false, List.cons_append]
      rw [ih]

theorem splitChars_injective (sep : Char) {s t : List Char}
    (h : splitChars sep s = splitChars sep t) : s = t := by
  unfold splitChars at h
  rw [← splitParts_join sep s, ← splitParts_join sep t]
  injection h with h1 h2
  rw [h1, h2]

theorem map_data_Split (s : String) (sep : Char) :
    (Split s sep).map String.data = splitChars sep s.data := by
  unfold Split
  rw [List.map_map]
  exact List.map_id _

theorem Split_injective (sep : Char) {s t : String} (h : Split s sep = Split t sep) :
    s = t := by
  have h2 : splitChars sep s.data = splitChars sep t.data := by
    rw [← map_data_Split, ← map_data_Split, h]
  exact String.ext (splitChars_injective sep h2)

end Strings

/-! ## Lemmas on `compareVersions` -/

theorem compareVersions.loop_true_iff (parts1 parts2 : List String) :
    ∀ r1 r2 : List String, compareVersions.loop parts1 parts2 r1 r2 = true ↔
      (∀ i, i < r1.length → i < r2.length → r1[i]? = r2[i]?) ∧
        parts1.length = parts2.length := by
  intro r1
  induction r1 with
  | nil => intro r2; simp [compareVersions.loop]
  | cons a r1 ih =>
    intro r2
    cases r2 with
    | nil => simp [compareVersions.loop]
    | cons b r2 =>
      by_cases hab : a = b
      · subst hab
        simp only [compareVersions.loop, ne_eq, not_true_eq_false, if_false, ih r2]
        constructor
        · rintro ⟨h1, h2⟩
          refine ⟨?_, h2⟩
          intro i hi1 hi2
          cases i with
          | zero => simp
          | succ j =>
            simp only [List.length_cons, Nat.add_lt_add_iff_right] at hi1 hi2
            simpa using h1 j hi1 hi2
        · rintro ⟨h1, h2⟩
          refine ⟨?_, h2⟩
          intro i hi1 hi2
          simpa using h1 (i + 1) (by simpa using hi1) (by simpa using hi2)
      · simp only [compareVersions.loop, ne_eq, hab, not_false_eq_true, if_true,
          Bool.false_eq_true, false_iff, not_and]
        intro h
        exact absurd (by simpa using h 0 (by simp) (by simp)) hab

theorem compareVersions_true_iff_parts (v1 v2 : String) :
    compareVersions v1 v2 = true ↔ Strings.Split v1 '.' = Strings.Split v2 '.' := by
  unfold compareVersions
  simp only [compareVersions.loop_true_iff]
  constructor
  · rintro ⟨h1, h2⟩
    apply List.ext_getElem?
    intro i
    by_cases hi : i < (Strings.Split v1 '.').length
    · exact h1 i hi (h2 ▸ hi)
    · have hi2 : ¬ i < (Strings.Split v2 '.').length := h2 ▸ hi
      rw [List.getElem?_eq_none (Nat.le_of_not_lt hi), List.getElem?_eq_none (Nat.le_of_not_lt hi2)]
  · intro h
    rw [h]
    exact ⟨fun _ _ _ => rfl, rfl⟩

theorem compareVersions_true_iff_eq (v1 v2 : String) :
    compareVersions v1 v2 = true ↔ v1 = v2 := by
  rw [compareVersions_true_iff_parts]
  exact ⟨Strings.Split_injective '.', fun h => h ▸ rfl⟩

/-! ## The backtracking matcher on the version pattern -/

namespace Regexp

theorem iterate_digit_head (step : List Char → List (List Char)) (h0 : step [] = [])
    (h1 : ∀ c cs, step (c :: cs) = if isDigit c = true then [cs] else []) :
    ∀ (n : Nat) (s : List Char), s.length ≤ n → (iterate step n s).head? = digitsRest s := by
  intro n
  induction n with
  | zero =>
    intro s hs
    have : s = [] := List.eq_nil_of_length_eq_zero (Nat.le_zero.mp hs)
    subst this
    rfl
  | succ n ih =>
    intro s hs
    cases s with
    | nil => simp [iterate, h0, digitsRest]
    | cons c cs =>
      have hlen : cs.length ≤ n := by simpa using hs
      by_cases hc : isDigit c = true
      · simp only [iterate, h1, hc, if_true, List.flatMap_cons, List.flatMap_nil,
          List.append_nil, List.length_cons, Nat.lt_succ_self, List.head?_append, ih cs hlen,
          digitsRest]
        cases cs with
        | nil => rfl
        | cons d ds =>
          by_cases hd : isDigit d = true
          · simp [digitsRest, hd]
          · simp [digitsRest, hd]
      · simp [iterate, h1, hc, digitsRest]

theorem run_digits_head (s : List Char) :
    ((Regex.plus .digit).run s).head? = digitsRest s := by
  show (iterate (Regex.run .digit) s.length s).head? = digitsRest s
  exact iterate_digit_head _ rfl (fun _ _ => rfl) s.length s (Nat.le_refl _)

theorem run_group_head (s : List Char) :
    ((Regex.cat (.lit '.') (.plus .digit)).run s).head? = groupRest s := by
  cases s with
  | nil => rfl
  | cons c cs =>
    by_cases hc : c = '.'
    · subst hc
      show ((Regex.run (.lit '.') ('.' :: cs)).flatMap (Regex.run (.plus .digit))).head? = _
      simp [Regex.run, groupRest, ← run_digits_head]
    · show ((Regex.run (.lit '.') (c :: cs)).flatMap (Regex.run (.plus .digit))).head? = _
      simp [Regex.run, groupRest, hc]

theorem run_upTo2_head (s : List Char) :
    ((Regex.upTo2 (.cat (.lit '.') (.plus .digit))).run s).head? = some (tailRest s) := by
  have hs := run_group_head s
  generalize hG : Regex.cat (.lit '.') (.plus .digit) = G at hs
  show (((G.run s).flatMap fun r => G.run r ++ [r]) ++ [s]).head? = some (tailRest s)
  rw [List.head?_append, List.head?_flatMap]
  cases hrun : G.run s with
  | nil =>
    rw [hrun] at hs
    simp only [List.head?_nil] at hs
    simp [tailRest, ← hs]
  | cons r rest =>
    rw [hrun] at hs
    simp only [List.head?_cons] at hs
    have hr := run_group_head r
    rw [hG] at hr
    simp only [tailRest, ← hs, List.findSome?_cons, List.head?_append, hr]
    cases groupRest r <;> simp

theorem findSome?_some_eq_head? {α β : Type} (f : α → β) (l : List α) :
    l.findSome? (fun a => some (f a)) = l.head?.map f := by
  cases l <;> simp [List.findSome?_cons]

theorem run_body_head (s : List Char) :
    ((Regex.cat (.plus .digit)
      (Regex.upTo2 (.cat (.lit '.') (.plus .digit)))).run s).head? = bodyRest s := by
  show (((Regex.plus .digit).run s).flatMap
    (Regex.run (Regex.upTo2 (.cat (.lit '.') (.plus .digit))))).head? = bodyRest s
  rw [List.head?_flatMap]
  simp only [run_upTo2_head, findSome?_some_eq_head?, run_digits_head, bodyRest]

theorem run_versionRe_head (s : List Char) : (versionRe.run s).head? = startRest s := by
  have hB := run_body_head
  unfold versionRe
  generalize Regex.cat (.plus .digit) (Regex.upTo2 (.cat (.lit '.') (.plus .digit))) = B at hB
  show (((Regex.lit 'v').run s ++ [s]).flatMap B.run).head? = startRest s
  cases s with
  | nil => simp [Regex.run, hB, startRest, bodyRest, digitsRest]
  | cons c cs =>
    by_cases hc : c = 'v'
    · simp [Regex.run, hc, hB, startRest]
    · simp [Regex.run, hc, hB, startRest]

theorem digitsRest_append (g x : List Char) (hne : g ≠ []) (hg : ∀ c ∈ g, isDigit c = true)
    (hx : ∀ c, x.head? = some c → isDigit c = false) : digitsRest (g ++ x) = some x := by
  cases g with
  | nil => exact absurd rfl hne
  | cons c cs =>
    have hc : isDigit c = true := hg c (List.mem_cons_self _ _)
    have hcs : ∀ a ∈ cs, isDigit a = true := fun a ha => hg a (List.mem_cons_of_mem _ ha)
    simp only [List.cons_append, digitsRest, hc, if_true, List.dropWhile_append_of_pos hcs]
    cases x with
    | nil => rfl
    | cons d ds =>
      have hd : isDigit d = false := hx d rfl
      simp [hd]

theorem digitsRest_spec {s r : List Char} (h : digitsRest s = some r) :
    ∃ g, g ≠ [] ∧ (∀ c ∈ g, isDigit c = true) ∧ s = g ++ r := by
  cases s with
  | nil => simp [digitsRest] at h
  | cons c cs =>
    by_cases hc : isDigit c = true
    · simp only [digitsRest, hc, if_true, Option.some.injEq] at h
      refine ⟨c :: cs.takeWhile isDigit, by simp, ?_, ?_⟩
      · intro a ha
        rcases List.mem_cons.mp ha with rfl | ha
        · exact hc
        · exact (List.mem_takeWhile_imp ha)
      · rw [← h, List.cons_append, List.takeWhile_append_dropWhile]
    · simp [digitsRest, hc] at h

theorem digitsRest_eq_none {s : List Char} (h : ∀ c, s.head? = some c → isDigit c = false) :
    digitsRest s = none := by
  cases s with
  | nil => rfl
  | cons c cs => simp [digitsRest, h c rfl]

theorem groupRest_spec {s r : List Char} (h : groupRest s = some r) :
    ∃ g, g ≠ [] ∧ (∀ c ∈ g, isDigit c = true) ∧ s = '.' :: g ++ r := by
  cases s with
  | nil => simp [groupRest] at h
  | cons c cs =>
    by_cases hc : c = '.'
    · subst hc
      simp only [groupRest, if_true] at h
      obtain ⟨g, h1, h2, h3⟩ := digitsRest_spec h
      exact ⟨g, h1, h2, by rw [h3]; rfl⟩
    · simp [groupRest, hc] at h

theorem tailRest_spec (s : List Char) :
    ∃ gs : List (List Char), gs.length ≤ 2 ∧
      (∀ p ∈ gs, p ≠ [] ∧ ∀ c ∈ p, isDigit c = true) ∧
      s = (gs.flatMap fun p => '.' :: p) ++ tailRest s := by
  unfold tailRest
  cases h2 : groupRest s with
  | none => exact ⟨[], by simp, by simp, by simp⟩
  | some r2 =>
    obtain ⟨g2, hg21, hg22, hs2⟩ := groupRest_spec h2
    cases h3 : groupRest r2 with
    | none =>
      refine ⟨[g2], by simp, ?_, ?_⟩
      · intro p hp
        rw [List.mem_singleton.mp hp]
        exact ⟨hg21, hg22⟩
      · simp only [h3, Option.getD_none]
        rw [hs2]; simp
    | some r3 =>
      obtain ⟨g3, hg31, hg32, hs3⟩ := groupRest_spec h3
      refine ⟨[g2, g3], by simp, ?_, ?_⟩
      · intro p hp
        simp only [List.mem_cons, List.mem_singleton, List.not_mem_nil, or_false] at hp
        rcases hp with rfl | rfl
        · exact ⟨hg21, hg22⟩
        · exact ⟨hg31, hg32⟩
      · simp only [h3, Option.getD_some]
        rw [hs2, hs3]; simp

theorem bodyRest_spec {s r : List Char} (h : bodyRest s = some r) :
    ∃ (g : List Char) (gs : List (List Char)), g ≠ [] ∧ (∀ c ∈ g, isDigit c = true) ∧
      gs.length ≤ 2 ∧ (∀ p ∈ gs, p ≠ [] ∧ ∀ c ∈ p, isDigit c = true) ∧
      s = (g ++ gs.flatMap fun p => '.' :: p) ++ r := by
  unfold bodyRest at h
  cases h1 : digitsRest s with
  | none => simp [h1] at h
  | some r1 =>
    simp only [h1, Option.map_some', Option.some.injEq] at h
    obtain ⟨g, hg1, hg2, hs⟩ := digitsRest_spec h1
    obtain ⟨gs, hl, hgs, hr1⟩ := tailRest_spec r1
    refine ⟨g, gs, hg1, hg2, hl, hgs, ?_⟩
    rw [hs, ← h, List.append_assoc, ← hr1]

theorem matchAt_versionRe (s : List Char) :
    matchAt versionRe s = (startRest s).map fun r => s.take (s.length - r.length) := by
  unfold matchAt
  rw [run_versionRe_head]

theorem isDigit_ne_v {c : Char} (h : isDigit c = true) : c ≠ 'v' := by
  rintro rfl
  revert h
  decide

theorem isDigit_ne_dot {c : Char} (h : isDigit c = true) : c ≠ '.' := by
  rintro rfl
  revert h
  decide

theorem DottedDigits.head {t : List Char} (h : DottedDigits t) :
    ∃ c cs, t = c :: cs ∧ isDigit c = true := by
  obtain ⟨g, gs, hne, hg, -, -, rfl⟩ := h
  cases g with
  | nil => exact absurd rfl hne
  | cons c cs => exact ⟨c, _, rfl, hg c (List.mem_cons_self _ _)⟩

theorem bodyRest_dotted {s r : List Char} (h : bodyRest s = some r) :
    ∃ t, DottedDigits t ∧ s = t ++ r := by
  obtain ⟨g, gs, h1, h2, h3, h4, h5⟩ := bodyRest_spec h
  exact ⟨_, ⟨g, gs, h1, h2, h3, h4, rfl⟩, h5⟩

theorem bodyRest_cons_eq_none {c : Char} (cs : List Char) (hc : isDigit c = false) :
    bodyRest (c :: cs) = none := by
  simp [bodyRest, digitsRest, hc]

theorem startRest_spec {s r : List Char} (h : startRest s = some r) :
    ∃ t, DottedDigits t ∧ (s = t ++ r ∨ s = 'v' :: t ++ r) := by
  cases s with
  | nil => simp [startRest] at h
  | cons c cs =>
    by_cases hc : c = 'v'
    · subst hc
      simp only [startRest, if_true, bodyRest_cons_eq_none cs (by decide : isDigit 'v' = false),
        Option.or_none] at h
      obtain ⟨t, ht, hs⟩ := bodyRest_dotted h
      exact ⟨t, ht, Or.inr (by rw [hs]; rfl)⟩
    · simp only [startRest, hc, if_false] at h
      obtain ⟨t, ht, hs⟩ := bodyRest_dotted h
      exact ⟨t, ht, Or.inl hs⟩

theorem take_sub_append (m r : List Char) :
    (m ++ r).take ((m ++ r).length - r.length) = m := by
  simp

theorem matchAt_spec {s m : List Char} (h : matchAt versionRe s = some m) :
    ∃ t, DottedDigits t ∧ (m = t ∨ m = 'v' :: t) := by
  rw [matchAt_versionRe] at h
  cases hr : startRest s with
  | none => simp [hr] at h
  | some r =>
    simp only [hr, Option.map_some', Option.some.injEq] at h
    obtain ⟨t, ht, hs | hs⟩ := startRest_spec hr
    · refine ⟨t, ht, Or.inl ?_⟩
      rw [← h, hs, take_sub_append]
    · refine ⟨t, ht, Or.inr ?_⟩
      rw [← h, hs]
      exact take_sub_append ('v' :: t) r

theorem find_spec : ∀ {s m : List Char}, find versionRe s = some m →
    ∃ t, DottedDigits t ∧ (m = t ∨ m = 'v' :: t) := by
  intro s
  induction s with
  | nil => intro m h; exact matchAt_spec h
  | cons c cs ih =>
    intro m h
    simp only [find] at h
    cases hm : matchAt versionRe (c :: cs) with
    | none =>
      rw [hm] at h
      exact ih h
    | some m1 =>
      rw [hm] at h
      simp only [Option.some.injEq] at h
      exact matchAt_spec (h ▸ hm)

theorem bodyRest_eq_none {s : List Char} (h : ∀ c, s.head? = some c → isDigit c = false) :
    bodyRest s = none := by
  simp [bodyRest, digitsRest_eq_none h]

theorem find_of_matchAt {s m : List Char} (h : matchAt versionRe s = some m) :
    find versionRe s = some m := by
  cases s with
  | nil => exact h
  | cons c cs => simp [find, h]

theorem find_cons_of_matchAt_none {c : Char} {cs : List Char}
    (h : matchAt versionRe (c :: cs) = none) :
    find versionRe (c :: cs) = find versionRe cs := by
  simp [find, h]

theorem startRest_of_digit {c : Char} (cs : List Char) (hc : isDigit c = true) :
    startRest (c :: cs) = bodyRest (c :: cs) := by
  simp [startRest, isDigit_ne_v hc]

theorem startRest_cons_of_not_digit {c : Char} (cs : List Char) (hc : isDigit c = false) :
    startRest (c :: cs) = if c = 'v' then bodyRest cs else none := by
  by_cases hv : c = 'v'
  · simp [startRest, hv, bodyRest_cons_eq_none cs (hv ▸ hc)]
  · simp [startRest, hv, bodyRest_cons_eq_none cs hc]

/-- Before the first digit of the input the pattern can only match at a `v`
that stands immediately before that digit. -/
theorem find_skip {x m r : List Char} (hx : x = m ++ r) (hb : bodyRest x = some r) :
    ∀ pre : List Char, (∀ c ∈ pre, isDigit c = false) →
      find versionRe (pre ++ x) = some m ∨ find versionRe (pre ++ x) = some ('v' :: m) := by
  have hstart : ∀ c ∈ x.head?, isDigit c = true := by
    intro c hc
    cases x with
    | nil => simp at hc
    | cons d ds =>
      simp only [List.head?_cons, Option.mem_def, Option.some.injEq] at hc
      subst hc
      by_contra hd
      rw [bodyRest_cons_eq_none ds (by simpa using hd)] at hb
      exact absurd hb (by simp)
  intro pre
  induction pre with
  | nil =>
    intro _
    left
    apply find_of_matchAt
    rw [matchAt_versionRe]
    cases x with
    | nil => simp [bodyRest, digitsRest] at hb
    | cons d ds =>
      rw [List.nil_append, startRest_of_digit ds (hstart d rfl), hb, Option.map_some', hx,
        take_sub_append]
  | cons c p ih =>
    intro hpre
    have hc : isDigit c = false := hpre c (List.mem_cons_self _ _)
    have hp : ∀ a ∈ p, isDigit a = false := fun a ha => hpre a (List.mem_cons_of_mem _ ha)
    by_cases hcase : c = 'v' ∧ p = []
    · obtain ⟨rfl, rfl⟩ := hcase
      right
      apply find_of_matchAt
      rw [matchAt_versionRe]
      show Option.map _ (startRest ('v' :: x)) = _
      rw [startRest_cons_of_not_digit x hc, if_pos rfl, hb, Option.map_some', hx]
      exact congrArg some (take_sub_append ('v' :: m) r)
    · have hnone : matchAt versionRe (c :: (p ++ x)) = none := by
        rw [matchAt_versionRe, startRest_cons_of_not_digit _ hc]
        by_cases hv : c = 'v'
        · have hpne : p ≠ [] := fun h => hcase ⟨hv, h⟩
          cases p with
          | nil => exact absurd rfl hpne
          | cons e p2 =>
            rw [if_pos hv, List.cons_append,
              bodyRest_cons_eq_none _ (hp e (List.mem_cons_self _ _))]
            rfl
        · rw [if_neg hv]
          rfl
      rw [List.cons_append, find_cons_of_matchAt_none hnone]
      exact ih hp

theorem find_eq_none_iff (s : List Char) :
    find versionRe s = none ↔ ∀ c ∈ s, isDigit c = false := by
  induction s with
  | nil =>
    simp only [List.not_mem_nil, false_implies, implies_true, iff_true]
    rfl
  | cons c cs ih =>
    constructor
    · intro h
      have hm : matchAt versionRe (c :: cs) = none := by
        cases hm : matchAt versionRe (c :: cs) with
        | none => rfl
        | some m => rw [find_of_matchAt hm] at h; exact absurd h (by simp)
      rw [find_cons_of_matchAt_none hm] at h
      have hc : isDigit c = false := by
        by_contra hd
        have hd : isDigit c = true := by simpa using hd
        rw [matchAt_versionRe, startRest_of_digit cs hd] at hm
        simp [bodyRest, digitsRest, hd] at hm
      intro a ha
      rcases List.mem_cons.mp ha with rfl | ha
      · exact hc
      · exact ih.mp h a ha
    · intro h
      have hc : isDigit c = false := h c (List.mem_cons_self _ _)
      have hcs : ∀ a ∈ cs, isDigit a = false := fun a ha => h a (List.mem_cons_of_mem _ ha)
      have hm : matchAt versionRe (c :: cs) = none := by
        rw [matchAt_versionRe, startRest_cons_of_not_digit cs hc]
        have : bodyRest cs = none := by
          apply bodyRest_eq_none
          intro a ha
          cases cs with
          | nil => simp at ha
          | cons e es =>
            simp only [List.head?_cons, Option.some.injEq] at ha
            exact ha ▸ hcs e (List.mem_cons_self _ _)
        rw [this]
        simp
      rw [find_cons_of_matchAt_none hm]
      exact ih.mpr hcs

end Regexp

namespace Strings

theorem TrimPrefix_v_cons (t : List Char) : TrimPrefix ⟨'v' :: t⟩ "v" = ⟨t⟩ := by
  simp [TrimPrefix, List.isPrefixOf]

theorem TrimPrefix_v_of_ne (c : Char) (cs : List Char) (hc : c ≠ 'v') :
    TrimPrefix ⟨c :: cs⟩ "v" = ⟨c :: cs⟩ := by
  have : ('v' == c) = false := by simpa using fun h => hc h.symm
  simp [TrimPrefix, List.isPrefixOf, this]

theorem TrimPrefix_v_empty : TrimPrefix ⟨[]⟩ "v" = "" := by
  decide

end Strings

namespace Regexp

theorem TrimPrefix_match {t m : List Char} (ht : DottedDigits t) (hm : m = t ∨ m = 'v' :: t) :
    Strings.TrimPrefix ⟨m⟩ "v" = ⟨t⟩ := by
  rcases hm with rfl | rfl
  · obtain ⟨c, cs, rfl, hc⟩ := ht.head
    exact Strings.TrimPrefix_v_of_ne c cs (isDigit_ne_v hc)
  · exact Strings.TrimPrefix_v_cons t

/-- The result of the default rule: empty when the pattern has no match, the
dotted digits of the leftmost match otherwise. -/
theorem TrimPrefix_FindString_cases (s : String) :
    (find versionRe s.data = none ∧
        Strings.TrimPrefix (FindString versionRe s) "v" = "") ∨
      ∃ t, DottedDigits t ∧ Strings.TrimPrefix (FindString versionRe s) "v" = ⟨t⟩ := by
  unfold FindString
  cases h : find versionRe s.data with
  | none => exact Or.inl ⟨rfl, Strings.TrimPrefix_v_empty⟩
  | some m =>
    obtain ⟨t, ht, hm⟩ := find_spec h
    exact Or.inr ⟨t, ht, TrimPrefix_match ht hm⟩

end Regexp

/-! ## Version tokens -/

namespace Strings

theorem splitParts_append_sep (sep : Char) (x : List Char) :
    ∀ g : List Char, (∀ c ∈ g, c ≠ sep) →
      splitParts sep (g ++ sep :: x) = (g, splitChars sep x) := by
  intro g
  induction g with
  | nil => intro _; simp [splitParts, splitChars]
  | cons c cs ih =>
    intro h
    have hc : c ≠ sep := h c (List.mem_cons_self _ _)
    have hcs := ih (fun a ha => h a (List.mem_cons_of_mem _ ha))
    simp [splitParts, hc, hcs]

theorem splitParts_of_no_sep (sep : Char) :
    ∀ g : List Char, (∀ c ∈ g, c ≠ sep) → splitParts sep g = (g, []) := by
  intro g
  induction g with
  | nil => intro _; rfl
  | cons c cs ih =>
    intro h
    have hc : c ≠ sep := h c (List.mem_cons_self _ _)
    have hcs := ih (fun a ha => h a (List.mem_cons_of_mem _ ha))
    simp [splitParts, hc, hcs]

theorem splitParts_dotted (sep : Char) :
    ∀ (gs : List (List Char)) (g : List Char), (∀ c ∈ g, c ≠ sep) →
      (∀ p ∈ gs, ∀ c ∈ p, c ≠ sep) →
      splitParts sep (g ++ gs.flatMap fun p => sep :: p) = (g, gs) := by
  intro gs
  induction gs with
  | nil =>
    intro g hg _
    simpa using splitParts_of_no_sep sep g hg
  | cons p ps ih =>
    intro g hg hgs
    have hp := ih p (hgs p (List.mem_cons_self _ _))
      (fun q hq => hgs q (List.mem_cons_of_mem _ hq))
    simp only [List.flatMap_cons, List.cons_append]
    rw [splitParts_append_sep sep _ g hg, splitChars, hp]

end Strings

namespace Regexp

theorem DottedDigits.split {t : List Char} (h : DottedDigits t) :
    ∃ (g : List Char) (gs : List (List Char)), Strings.splitChars '.' t = g :: gs ∧
      gs.length ≤ 2 ∧ (∀ p ∈ g :: gs, p ≠ [] ∧ ∀ c ∈ p, isDigit c = true) ∧
      t = g ++ gs.flatMap fun p => '.' :: p := by
  obtain ⟨g, gs, h1, h2, h3, h4, rfl⟩ := h
  refine ⟨g, gs, ?_, h3, ?_, rfl⟩
  · unfold Strings.splitChars
    rw [Strings.splitParts_dotted '.' gs g (fun c hc => isDigit_ne_dot (h2 c hc))
      (fun p hp c hc => isDigit_ne_dot ((h4 p hp).2 c hc))]
  · intro p hp
    rcases List.mem_cons.mp hp with rfl | hp
    · exact ⟨h1, h2⟩
    · exact h4 p hp

theorem head?_cons_not_digit {x : List Char} (c : Char) (cs : List Char)
    (hx : x = c :: cs) (hc : isDigit c = false) :
    ∀ a, x.head? = some a → isDigit a = false := by
  intro a ha
  rw [hx] at ha
  simp only [List.head?_cons, Option.some.injEq] at ha
  exact ha ▸ hc

theorem groupRest_dot (x : List Char) : groupRest ('.' :: x) = digitsRest x := by
  simp [groupRest]

theorem bodyRest_of_dotted (g : List Char) (gs : List (List Char)) (rest : List Char)
    (hg : g ≠ [] ∧ ∀ c ∈ g, isDigit c = true)
    (hgs : ∀ p ∈ gs, p ≠ [] ∧ ∀ c ∈ p, isDigit c = true) (hlen : gs.length ≤ 2)
    (hrest : ∀ c, rest.head? = some c → isDigit c = false)
    (hdot : gs.length < 2 → groupRest rest = none) :
    bodyRest ((g ++ gs.flatMap fun p => '.' :: p) ++ rest) = some rest := by
  have hdotc : ∀ y : List Char, ∀ a, ('.' :: y).head? = some a → isDigit a = false :=
    fun y => head?_cons_not_digit '.' y rfl (by decide)
  match gs, hgs, hlen, hdot with
  | [], _, _, hdot =>
    have h0 := hdot (by simp)
    simp [bodyRest, digitsRest_append g rest hg.1 hg.2 hrest, tailRest, h0]
  | [g2], hgs, _, hdot =>
    have h0 := hdot (by simp)
    have h2 := hgs g2 (by simp)
    have e : (g ++ [g2].flatMap fun p => '.' :: p) ++ rest = g ++ '.' :: (g2 ++ rest) := by simp
    rw [e]
    simp [bodyRest, digitsRest_append g _ hg.1 hg.2 (hdotc _), tailRest, groupRest_dot,
      digitsRest_append g2 rest h2.1 h2.2 hrest, h0]
  | [g2, g3], hgs, _, _ =>
    have h2 := hgs g2 (by simp)
    have h3 := hgs g3 (by simp)
    have e : (g ++ [g2, g3].flatMap fun p => '.' :: p) ++ rest =
        g ++ '.' :: (g2 ++ '.' :: (g3 ++ rest)) := by simp
    rw [e]
    simp [bodyRest, digitsRest_append g _ hg.1 hg.2 (hdotc _), tailRest, groupRest_dot,
      digitsRest_append g2 _ h2.1 h2.2 (hdotc _), digitsRest_append g3 rest h3.1 h3.2 hrest]
  | _ :: _ :: _ :: _, _, hlen, _ => exact absurd hlen (by simp)

end Regexp

theorem isVersionToken_of_dotted {t : List Char} (h : Regexp.DottedDigits t) :
    isVersionToken ⟨t⟩ = true := by
  obtain ⟨g, gs, hsplit, hlen, hall, -⟩ := h.split
  unfold isVersionToken Strings.Split
  rw [hsplit]
  simp only [List.map_cons, List.length_cons, List.length_map, Bool.and_eq_true,
    decide_eq_true_eq, List.all_eq_true]
  refine ⟨by omega, ?_⟩
  intro part hpart
  rw [← List.map_cons, List.mem_map] at hpart
  obtain ⟨p, hp, rfl⟩ := hpart
  have := hall p hp
  simp only [Bool.and_eq_true, Bool.not_eq_true', List.isEmpty_eq_false, List.all_eq_true]
  exact ⟨by simpa using this.1, this.2⟩

theorem dotted_of_isVersionToken {V : String} (h : isVersionToken V = true) :
    ∃ (g : List Char) (gs : List (List Char)),
      (g ≠ [] ∧ ∀ c ∈ g, Regexp.isDigit c = true) ∧
      (∀ p ∈ gs, p ≠ [] ∧ ∀ c ∈ p, Regexp.isDigit c = true) ∧
      (Strings.Split V '.').length = gs.length + 1 ∧ gs.length ≤ 2 ∧
      V.data = g ++ gs.flatMap fun p => '.' :: p := by
  unfold isVersionToken at h
  simp only [Bool.and_eq_true, decide_eq_true_eq, List.all_eq_true, Bool.not_eq_true',
    List.isEmpty_eq_false] at h
  obtain ⟨hlen, hall⟩ := h
  have hmem : ∀ p ∈ Strings.splitChars '.' V.data,
      p ≠ [] ∧ ∀ c ∈ p, Regexp.isDigit c = true := by
    intro p hp
    have := hall ⟨p⟩ (by unfold Strings.Split; exact List.mem_map_of_mem _ hp)
    exact ⟨by simpa using this.1, this.2⟩
  refine ⟨(Strings.splitParts '.' V.data).1, (Strings.splitParts '.' V.data).2,
    ?_, ?_, ?_, ?_, ?_⟩
  · exact hmem _ (by simp [Strings.splitChars])
  · intro p hp
    exact hmem p (by simp [Strings.splitChars, hp])
  · simp [Strings.Split, Strings.splitChars]
  · simpa [Strings.Split, Strings.splitChars] using hlen
  · exact (Strings.splitParts_join '.' V.data).symm

theorem Regexp.dotted_getLast? :
    ∀ (gs : List (List Char)) (g : List Char), (g ≠ [] ∧ ∀ c ∈ g, Regexp.isDigit c = true) →
      (∀ p ∈ gs, p ≠ [] ∧ ∀ c ∈ p, Regexp.isDigit c = true) →
      ∃ c, (g ++ gs.flatMap fun p => '.' :: p).getLast? = some c ∧
        Regexp.isDigit c = true := by
  intro gs
  induction gs with
  | nil =>
    intro g hg _
    cases h : g.getLast? with
    | none => exact absurd (List.getLast?_eq_none_iff.mp h) hg.1
    | some c => exact ⟨c, by simpa using h, hg.2 c (List.mem_of_getLast?_eq_some h)⟩
  | cons p ps ih =>
    intro g _ hgs
    obtain ⟨c, hc, hd⟩ := ih p (hgs p (List.mem_cons_self _ _))
      (fun q hq => hgs q (List.mem_cons_of_mem _ hq))
    refine ⟨c, ?_, hd⟩
    have e : (g ++ (p :: ps).flatMap fun p => '.' :: p) =
        (g ++ ['.']) ++ (p ++ ps.flatMap fun p => '.' :: p) := by simp
    rw [e, List.getLast?_append, hc]
    rfl

/-- What dotted digits look like: a version token made of digits and dots
that begins and ends with a digit. -/
theorem Regexp.DottedDigits.shape {t : List Char} (h : Regexp.DottedDigits t) :
    isVersionToken ⟨t⟩ = true ∧ (∀ c ∈ t, Regexp.isDigit c = true ∨ c = '.') ∧
      (∃ c, t.head? = some c ∧ Regexp.isDigit c = true) ∧
      (∃ c, t.getLast? = some c ∧ Regexp.isDigit c = true) := by
  refine ⟨isVersionToken_of_dotted h, ?_, ?_, ?_⟩
  · obtain ⟨g, gs, -, hg, -, hgs, rfl⟩ := h
    intro c hc
    simp only [List.mem_append, List.mem_flatMap, List.mem_cons] at hc
    rcases hc with hc | ⟨p, hp, rfl | hc⟩
    · exact Or.inl (hg c hc)
    · exact Or.inr rfl
    · exact Or.inl ((hgs p hp).2 c hc)
  · obtain ⟨c, cs, rfl, hc⟩ := h.head
    exact ⟨c, rfl, hc⟩
  · obtain ⟨g, gs, hne, hg, -, hgs, rfl⟩ := h
    exact Regexp.dotted_getLast? gs g ⟨hne, hg⟩ hgs

/-! ## Lemmas on `extractVersion` -/

theorem extractVersion_of_not_rsync {command : String}
    (hcmd : Strings.Contains command "rsync" = false) (output : String) :
    extractVersion command output =
      Strings.TrimPrefix (Regexp.FindString versionRe output) "v" := by
  simp [extractVersion, hcmd]

theorem extractVersion_of_rsync {command : String}
    (hcmd : Strings.Contains command "rsync" = true) (output : String) :
    extractVersion command output = extractVersion.fromLines (Strings.Split output '\n') := by
  simp [extractVersion, hcmd]

theorem extractVersion.fromLines_none :
    ∀ lines : List String, (∀ l ∈ lines, Strings.Contains l "rsync version" = false) →
      extractVersion.fromLines lines = "" := by
  intro lines
  induction lines with
  | nil => intro _; rfl
  | cons l ls ih =>
    intro h
    simp only [extractVersion.fromLines, h l (List.mem_cons_self _ _), Bool.false_eq_true,
      if_false]
    exact ih fun a ha => h a (List.mem_cons_of_mem _ ha)

theorem extractVersion.fromLines_first (line : String) (after : List String)
    (hline : Strings.Contains line "rsync version" = true) :
    ∀ before : List String, (∀ l ∈ before, Strings.Contains l "rsync version" = false) →
      extractVersion.fromLines (before ++ line :: after) =
        Strings.TrimPrefix (Regexp.FindString versionRe line) "v" := by
  intro before
  induction before with
  | nil => intro _; simp [extractVersion.fromLines, hline]
  | cons l ls ih =>
    intro h
    simp only [List.cons_append, extractVersion.fromLines, h l (List.mem_cons_self _ _),
      Bool.false_eq_true, if_false]
    exact ih fun a ha => h a (List.mem_cons_of_mem _ ha)

theorem extractVersion.fromLines_cases :
    ∀ lines : List String, extractVersion.fromLines lines = "" ∨
      ∃ t, Regexp.DottedDigits t ∧ extractVersion.fromLines lines = ⟨t⟩ := by
  intro lines
  induction lines with
  | nil => exact Or.inl rfl
  | cons l ls ih =>
    by_cases hl : Strings.Contains l "rsync version" = true
    · simp only [extractVersion.fromLines, hl, if_true]
      rcases Regexp.TrimPrefix_FindString_cases l with h | h
      · exact Or.inl h.2
      · exact Or.inr h
    · simp only [extractVersion.fromLines, hl, if_false]
      exact ih

/-- On either path the extracted version is empty or dotted digits. -/
theorem extractVersion_cases (command output : String) :
    extractVersion command output = "" ∨
      ∃ t, Regexp.DottedDigits t ∧ extractVersion command output = ⟨t⟩ := by
  by_cases hcmd : Strings.Contains command "rsync" = true
  · rw [extractVersion_of_rsync hcmd]
    exact extractVersion.fromLines_cases _
  · rw [extractVersion_of_not_rsync (by simpa using hcmd)]
    rcases Regexp.TrimPrefix_FindString_cases output with h | h
    · exact Or.inl h.2
    · exact Or.inr h

theorem groupRest_of_not_startsWithDotDigit {rest : String}
    (h : startsWithDotDigit rest = false) : Regexp.groupRest rest.data = none := by
  unfold startsWithDotDigit at h
  cases hr : rest.data with
  | nil => rfl
  | cons c cs =>
    cases cs with
    | nil => simp [Regexp.groupRest, Regexp.digitsRest]
    | cons d t =>
      rw [hr] at h
      simp only [Bool.and_eq_false_imp, beq_iff_eq] at h
      by_cases hc : c = '.'
      · simp [Regexp.groupRest, Regexp.digitsRest, hc, h hc]
      · simp [Regexp.groupRest, hc]

theorem head?_of_not_startsWithDigit {rest : String} (h : startsWithDigit rest = false) :
    ∀ c, rest.data.head? = some c → Regexp.isDigit c = false := by
  unfold startsWithDigit at h
  intro c hc
  cases hr : rest.data with
  | nil => rw [hr] at hc; simp at hc
  | cons d t =>
    rw [hr] at h hc
    simp only [List.head?_cons, Option.some.injEq] at hc
    exact hc ▸ h

/-! ## The extractor -/

/-- C3: for a command that does not contain `rsync` and an output
`pre ++ V ++ rest` where `pre` has no ASCII digit, `V` is one to three
non-empty groups of ASCII digits joined by single dots, `rest` does not begin
with a digit and, when `V` has fewer than three groups, `rest` does not begin
with a dot followed by a digit, `extractVersion` returns `V`: a `v` at the end
of `pre` is stripped and whatever else `rest` holds is ignored. -/
theorem extractVersion_first_token (command pre V rest : String)
    (hcmd : Strings.Contains command "rsync" = false)
    (hpre : ∀ c ∈ pre.data, Regexp.isDigit c = false)
    (hV : isVersionToken V = true)
    (hrest : startsWithDigit rest = false)
    (hdot : (Strings.Split V '.').length < 3 → startsWithDotDigit rest = false) :
    extractVersion command (pre ++ V ++ rest) = V := by
  obtain ⟨g, gs, hg, hgs, hcount, hlen, hdata⟩ := dotted_of_isVersionToken hV
  have hdotted : Regexp.DottedDigits V.data := ⟨g, gs, hg.1, hg.2, hlen, hgs, hdata⟩
  have hb : Regexp.bodyRest (V.data ++ rest.data) = some rest.data := by
    rw [hdata]
    refine Regexp.bodyRest_of_dotted g gs rest.data hg hgs hlen
      (head?_of_not_startsWithDigit hrest) ?_
    intro h2
    exact groupRest_of_not_startsWithDotDigit (hdot (by omega))
  have hfind := Regexp.find_skip rfl hb pre.data hpre
  have hstr : (pre ++ V ++ rest).data = pre.data ++ (V.data ++ rest.data) := by
    simp [String.data_append]
  rw [extractVersion_of_not_rsync hcmd]
  unfold Regexp.FindString
  rw [hstr]
  rcases hfind with h | h
  · rw [h]
    exact Regexp.TrimPrefix_match hdotted (Or.inl rfl)
  · rw [h]
    exact Regexp.TrimPrefix_match hdotted (Or.inr rfl)

/-- C3, on the outputs of the repository's tests: a token in parentheses
behind a `v` with a later date, a token with a suffix, a single group. -/
theorem extractVersion_first_token_witness :
    extractVersion "echo" ("Tool (v" ++ "4.5.6" ++ ") [built 2023-05-01]") = "4.5.6" ∧
      extractVersion "echo" ("Tool " ++ "3.1.4" ++ "-alpha") = "3.1.4" ∧
      extractVersion "echo" ("Tool version " ++ "2" ++ "") = "2" :=
  ⟨extractVersion_first_token "echo" "Tool (v" "4.5.6" ") [built 2023-05-01]"
      (by decide) (by decide) (by decide) (by decide) (by decide),
    extractVersion_first_token "echo" "Tool " "3.1.4" "-alpha"
      (by decide) (by decide) (by decide) (by decide) (by decide),
    extractVersion_first_token "echo" "Tool version " "2" ""
      (by decide) (by decide) (by decide) (by decide) (by decide)⟩

/-- C4: for a command that contains `rsync`, the result is empty when no line
of the output contains `rsync version`, whatever the lines hold; otherwise it
is the result of the default rule on the first line that contains
`rsync version`, that is what `extractVersion` returns for a command without
`rsync` on that line alone. -/
theorem extractVersion_rsync (command output : String)
    (hcmd : Strings.Contains command "rsync" = true) :
    ((∀ line ∈ Strings.Split output '\n', Strings.Contains line "rsync version" = false) →
      extractVersion command output = "") ∧
    (∀ (before : List String) (line : String) (after : List String),
      Strings.Split output '\n' = before ++ line :: after →
      (∀ l ∈ before, Strings.Contains l "rsync version" = false) →
      Strings.Contains line "rsync version" = true →
      extractVersion command output =
          Strings.TrimPrefix (Regexp.FindString versionRe line) "v" ∧
        ∀ other : String, Strings.Contains other "rsync" = false →
          extractVersion command output = extractVersion other line) := by
  rw [extractVersion_of_rsync hcmd]
  refine ⟨extractVersion.fromLines_none _, ?_⟩
  intro before line after hsplit hbefore hline
  rw [hsplit, extractVersion.fromLines_first line after hline before hbefore]
  exact ⟨rfl, fun other hother => (extractVersion_of_not_rsync hother line).symm⟩

/-- C4, on the rsync output of the repository's test, where the protocol line
is passed over, and on an output whose only version-like token is on a line
without `rsync version`. -/
theorem extractVersion_rsync_witness :
    extractVersion "rsync"
        "openrsync: protocol version 29\nrsync version 2.6.9 compatible" = "2.6.9" ∧
      extractVersion "rsync --version" "openrsync: protocol version 29" = "" :=
  ⟨((extractVersion_rsync "rsync"
      "openrsync: protocol version 29\nrsync version 2.6.9 compatible" (by decide)).2
      ["openrsync: protocol version 29"] "rsync version 2.6.9 compatible" []
      (by decide) (by decide) (by decide)).1.trans (by decide),
    (extractVersion_rsync "rsync --version" "openrsync: protocol version 29" (by decide)).1
      (by decide)⟩

/-- C5: on either path the result of `extractVersion` is the empty string or
a canonical version token, one to three non-empty groups of ASCII digits
separated by single dots; a non-empty result holds only digits and dots, does
not begin with `v`, `V` or a dot and does not end with a dot. -/
theorem extractVersion_canonical (command output : String) :
    (extractVersion command output = "" ∨
      isVersionToken (extractVersion command output) = true) ∧
    (extractVersion command output ≠ "" →
      (∀ c ∈ (extractVersion command output).data, Regexp.isDigit c = true ∨ c = '.') ∧
      (extractVersion command output).data.head? ≠ some 'v' ∧
      (extractVersion command output).data.head? ≠ some 'V' ∧
      (extractVersion command output).data.head? ≠ some '.' ∧
      (extractVersion command output).data.getLast? ≠ some '.') := by
  rcases extractVersion_cases command output with h | ⟨t, ht, h⟩
  · exact ⟨Or.inl h, fun hne => absurd h hne⟩
  · rw [h]
    obtain ⟨h1, h2, ⟨c, hc, hcd⟩, ⟨d, hd, hdd⟩⟩ := ht.shape
    refine ⟨Or.inr h1, fun _ => ⟨h2, ?_, ?_, ?_, ?_⟩⟩
    · show t.head? ≠ some 'v'
      rw [hc]
      intro hv
      rw [Option.some.inj hv] at hcd
      exact absurd hcd (by decide)
    · show t.head? ≠ some 'V'
      rw [hc]
      intro hv
      rw [Option.some.inj hv] at hcd
      exact absurd hcd (by decide)
    · show t.head? ≠ some '.'
      rw [hc]
      intro hv
      rw [Option.some.inj hv] at hcd
      exact absurd hcd (by decide)
    · show t.getLast? ≠ some '.'
      rw [hd]
      intro hv
      rw [Option.some.inj hv] at hdd
      exact absurd hdd (by decide)

/-- C5, on an rsync output and on an output with a `v` before the token. -/
theorem extractVersion_canonical_witness :
    isVersionToken (extractVersion "rsync"
        "openrsync: protocol version 29\nrsync version 2.6.9 compatible") = true ∧
      (extractVersion "echo" "Tool v1.22").data.head? ≠ some 'v' ∧
      (extractVersion "echo" "Tool 3.1.4.-alpha").data.getLast? ≠ some '.' :=
  ⟨(extractVersion_canonical "rsync"
      "openrsync: protocol version 29\nrsync version 2.6.9 compatible").1.resolve_left
      (by decide),
    ((extractVersion_canonical "echo" "Tool v1.22").2 (by decide)).2.1,
    ((extractVersion_canonical "echo" "Tool 3.1.4.-alpha").2 (by decide)).2.2.2.2⟩

/-- C8: for a command that does not contain `rsync`, the result of
`extractVersion` is empty exactly when the output has no ASCII digit. -/
theorem extractVersion_empty_iff (command output : String)
    (hcmd : Strings.Contains command "rsync" = false) :
    extractVersion command output = "" ↔ ∀ c ∈ output.data, Regexp.isDigit c = false := by
  rw [extractVersion_of_not_rsync hcmd, ← Regexp.find_eq_none_iff]
  rcases Regexp.TrimPrefix_FindString_cases output with ⟨h1, h2⟩ | ⟨t, ht, h⟩
  · exact ⟨fun _ => h1, fun _ => h2⟩
  · have hne : (⟨t⟩ : String) ≠ "" := by
      obtain ⟨c, cs, rfl, -⟩ := ht.head
      intro hcontra
      exact absurd (congrArg String.data hcontra) (by simp)
    constructor
    · intro h0
      exact absurd (h ▸ h0) hne
    · intro hnone
      have : Strings.TrimPrefix (Regexp.FindString versionRe output) "v" = "" := by
        unfold Regexp.FindString
        rw [hnone]
        exact Strings.TrimPrefix_v_empty
      exact absurd (h ▸ this) hne

/-- C8, on an output without a digit and on an output that is a single
digit. -/
theorem extractVersion_empty_iff_witness :
    extractVersion "echo" "Tool has no version" = "" ∧ extractVersion "echo" "2" ≠ "" :=
  ⟨(extractVersion_empty_iff "echo" "Tool has no version" (by decide)).mpr (by decide),
    fun h => absurd ((extractVersion_empty_iff "echo" "2" (by decide)).mp h) (by decide)⟩

/-! ## The comparator -/

/-- C1: `compareVersions v1 v2` is true exactly when cutting `v1` and `v2` at
the dots gives the same number of components and the components agree at every
position; it is false when some shared position differs, and false when all
shared positions agree but the numbers of components differ. -/
theorem compareVersions_componentwise (v1 v2 : String) :
    (compareVersions v1 v2 = true ↔
      (Strings.Split v1 '.').length = (Strings.Split v2 '.').length ∧
        ∀ i, i < (Strings.Split v1 '.').length →
          (Strings.Split v1 '.')[i]? = (Strings.Split v2 '.')[i]?) ∧
    ((∃ i, i < (Strings.Split v1 '.').length ∧ i < (Strings.Split v2 '.').length ∧
        (Strings.Split v1 '.')[i]? ≠ (Strings.Split v2 '.')[i]?) →
      compareVersions v1 v2 = false) ∧
    ((∀ i, i < (Strings.Split v1 '.').length → i < (Strings.Split v2 '.').length →
        (Strings.Split v1 '.')[i]? = (Strings.Split v2 '.')[i]?) →
      (Strings.Split v1 '.').length ≠ (Strings.Split v2 '.').length →
      compareVersions v1 v2 = false) := by
  have key := compareVersions.loop_true_iff (Strings.Split v1 '.') (Strings.Split v2 '.')
    (Strings.Split v1 '.') (Strings.Split v2 '.')
  refine ⟨?_, ?_, ?_⟩
  · unfold compareVersions
    rw [key]
    constructor
    · rintro ⟨h1, h2⟩
      exact ⟨h2, fun i hi => h1 i hi (h2 ▸ hi)⟩
    · rintro ⟨h2, h1⟩
      exact ⟨fun i hi _ => h1 i hi, h2⟩
  · rintro ⟨i, hi1, hi2, hne⟩
    cases hc : compareVersions v1 v2 with
    | false => rfl
    | true =>
      unfold compareVersions at hc
      exact absurd ((key.mp hc).1 i hi1 hi2) hne
  · intro _ hlen
    cases hc : compareVersions v1 v2 with
    | false => rfl
    | true =>
      unfold compareVersions at hc
      exact absurd (key.mp hc).2 hlen

/-- C1, on the comparator examples of the specification. -/
theorem compareVersions_componentwise_witness :
    compareVersions "1.22.3" "1.22.3" = true ∧ compareVersions "1.22.4" "1.22.3" = false ∧
      compareVersions "1.22" "1.22.3" = false :=
  ⟨(compareVersions_componentwise "1.22.3" "1.22.3").1.mpr (by decide),
    (compareVersions_componentwise "1.22.4" "1.22.3").2.1 ⟨2, by decide, by decide, by decide⟩,
    (compareVersions_componentwise "1.22" "1.22.3").2.2 (by decide) (by decide)⟩

/-- C2: a version never matches a version that extends it by further
components, in either direction: `compareVersions v (v ++ "." ++ w)` and
`compareVersions (v ++ "." ++ w) v` are both false, as for `1.22` against
`1.22.3`. -/
theorem compareVersions_extension (v w : String) :
    compareVersions v (v ++ "." ++ w) = false ∧ compareVersions (v ++ "." ++ w) v = false ∧
      compareVersions "1.22" "1.22.3" = false ∧ compareVersions "1.22.3" "1.22" = false := by
  have hne : v ≠ v ++ "." ++ w := by
    intro h
    have hl := congrArg String.length h
    simp only [String.length_append] at hl
    have : ".".length = 1 := rfl
    omega
  refine ⟨?_, ?_, by decide, by decide⟩
  · cases hc : compareVersions v (v ++ "." ++ w) with
    | false => rfl
    | true => exact absurd ((compareVersions_true_iff_eq _ _).mp hc) hne
  · cases hc : compareVersions (v ++ "." ++ w) v with
    | false => rfl
    | true => exact absurd ((compareVersions_true_iff_eq _ _).mp hc).symm hne

/-- C9: components are compared as strings: when `v1` and `v2` have the same
number of components and the components at some position are different
strings, `compareVersions v1 v2` is false. -/
theorem compareVersions_string_components (v1 v2 : String) (i : Nat)
    (hlen : (Strings.Split v1 '.').length = (Strings.Split v2 '.').length)
    (hi : i < (Strings.Split v1 '.').length)
    (hne : (Strings.Split v1 '.').get ⟨i, hi⟩ ≠ (Strings.Split v2 '.').get ⟨i, hlen ▸ hi⟩) :
    compareVersions v1 v2 = false := by
  cases hc : compareVersions v1 v2 with
  | false => rfl
  | true =>
    have hparts := (compareVersions_true_iff_parts v1 v2).mp hc
    have hopt : (Strings.Split v1 '.')[i]? = (Strings.Split v2 '.')[i]? := by rw [hparts]
    rw [List.getElem?_eq_getElem hi, List.getElem?_eq_getElem (hlen ▸ hi)] at hopt
    exact absurd (Option.some.inj hopt) hne

/-- C9, on `02` against `2` and `1.02` against `1.2`: the differing components
`02` and `2` denote the same integer and still do not match. -/
theorem compareVersions_string_components_witness :
    compareVersions "02" "2" = false ∧ compareVersions "1.02" "1.2" = false :=
  ⟨compareVersions_string_components "02" "2" 0 (by decide) (by decide) (by decide),
    compareVersions_string_components "1.02" "1.2" 1 (by decide) (by decide) (by decide)⟩

/-- C10: `compareVersions` is string equality, hence reflexive, symmetric and
transitive. -/
theorem compareVersions_iff_eq (v1 v2 v3 : String) :
    (compareVersions v1 v2 = true ↔ v1 = v2) ∧ compareVersions v1 v1 = true ∧
      compareVersions v1 v2 = compareVersions v2 v1 ∧
      (compareVersions v1 v2 = true → compareVersions v2 v3 = true →
        compareVersions v1 v3 = true) := by
  refine ⟨compareVersions_true_iff_eq v1 v2, (compareVersions_true_iff_eq v1 v1).mpr rfl, ?_, ?_⟩
  · rw [Bool.eq_iff_iff, compareVersions_true_iff_eq, compareVersions_true_iff_eq]
    exact eq_comm
  · intro h12 h23
    rw [compareVersions_true_iff_eq] at h12 h23 ⊢
    exact h12.trans h23

/-- C10, on the empty string and on strings with empty components. -/
theorem compareVersions_iff_eq_witness :
    compareVersions "" "" = true ∧ compareVersions "1..2" "1..2" = true ∧
      compareVersions "1." "1." = true ∧ ¬ (compareVersions "1." "1" = true) :=
  ⟨(compareVersions_iff_eq "" "" "").2.2.2
      ((compareVersions_iff_eq "" "" "").1.mpr rfl) ((compareVersions_iff_eq "" "" "").1.mpr rfl),
    (compareVersions_iff_eq "1..2" "1..2" "").1.mpr rfl,
    (compareVersions_iff_eq "1." "1." "").2.1,
    fun h => absurd ((compareVersions_iff_eq "1." "1" "").1.mp h) (by decide)⟩

/-! ## The check runner -/

theorem checkVersion_of_error {σ : Type} (h : Host σ) (tool : ToolConfig) (p : Proc σ)
    (err : String) (hsh : (h.sh tool.Command p.env).1 = .error err) :
    checkVersion h tool p =
      (false, Proc.print
        { p with env := (h.sh tool.Command p.env).2, ran := p.ran ++ [tool.Command] }
        ("Error executing command for " ++ tool.Name ++ ": " ++ err ++ "\n")) := by
  simp only [checkVersion, Host.CombinedOutput, hsh]

theorem checkVersion_of_ok {σ : Type} (h : Host σ) (tool : ToolConfig) (p : Proc σ)
    (output : String) (hsh : (h.sh tool.Command p.env).1 = .ok output) :
    checkVersion h tool p =
      if extractVersion tool.Command (Strings.TrimSpace output) = "" then
        (false, Proc.print (Proc.print
          { p with env := (h.sh tool.Command p.env).2, ran := p.ran ++ [tool.Command] }
          (tool.Name ++ ": No version found in output\n"))
          ("Command output: " ++ Strings.TrimSpace output ++ "\n"))
      else if compareVersions (extractVersion tool.Command (Strings.TrimSpace output))
          tool.Expect = true then
        (true, { p with env := (h.sh tool.Command p.env).2, ran := p.ran ++ [tool.Command] })
      else
        (false, Proc.print (Proc.print
          { p with env := (h.sh tool.Command p.env).2, ran := p.ran ++ [tool.Command] }
          (tool.Name ++ " version mismatch: Expected '" ++ tool.Expect ++ "', got '" ++
            extractVersion tool.Command (Strings.TrimSpace output) ++ "'\n"))
          ("Command output: " ++ Strings.TrimSpace output ++ "\n")) := by
  simp only [checkVersion, Host.CombinedOutput, hsh]

theorem Proc.text_print {σ : Type} (p : Proc σ) (t : String) :
    (p.print t).text = p.text ++ t := by
  simp [Proc.text, Proc.print, String.join, List.foldl_append]

/-- A check runs the command of its tool and no other. -/
theorem checkVersion_ran {σ : Type} (h : Host σ) (tool : ToolConfig) (p : Proc σ) :
    (checkVersion h tool p).2.ran = p.ran ++ [tool.Command] := by
  cases hsh : (h.sh tool.Command p.env).1 with
  | error err =>
    rw [checkVersion_of_error h tool p err hsh]
    rfl
  | ok output =>
    rw [checkVersion_of_ok h tool p output hsh]
    by_cases he : extractVersion tool.Command (Strings.TrimSpace output) = ""
    · rw [if_pos he]
      rfl
    · rw [if_neg he]
      by_cases hc : compareVersions (extractVersion tool.Command (Strings.TrimSpace output))
          tool.Expect = true
      · rw [if_pos hc]
      · rw [if_neg hc]
        rfl

theorem checkEach_ran {σ : Type} (h : Host σ) :
    ∀ (tools : List ToolConfig) (p : Proc σ),
      (checkEach h tools p).1.length = tools.length ∧
      (checkEach h tools p).2.ran = p.ran ++ tools.map ToolConfig.Command := by
  intro tools
  induction tools with
  | nil => intro p; exact ⟨rfl, by simp [checkEach]⟩
  | cons tool tools ih =>
    intro p
    obtain ⟨h1, h2⟩ := ih (checkVersion h tool p).2
    refine ⟨by simp [checkEach, h1], ?_⟩
    simp only [checkEach, h2, checkVersion_ran, List.map_cons, List.append_assoc,
      List.singleton_append]

theorem RunVersionCheck.loop_eq {σ : Type} (h : Host σ) :
    ∀ (tools : List ToolConfig) (allMatch : Bool) (p : Proc σ),
      RunVersionCheck.loop h tools allMatch p =
        (allMatch && (checkEach h tools p).1.all id, (checkEach h tools p).2) := by
  intro tools
  induction tools with
  | nil => intro allMatch p; simp [RunVersionCheck.loop, checkEach]
  | cons tool tools ih =>
    intro allMatch p
    simp only [RunVersionCheck.loop, ih, checkEach, List.all_cons, id]
    cases (checkVersion h tool p).1 <;> simp

/-- C7, as the code has it: once the configuration is read, `RunVersionCheck`
runs the check of every tool, in order, whatever the earlier verdicts were.
It returns normally, with standard output being what the checks wrote followed
by the summary line `Versions OK`, exactly when every check returned true.
When some check failed it exits with code 1 and writes nothing itself: the
final state, standard output included, is the state the checks left, so no
summary line is added to the diagnostics. -/
theorem RunVersionCheck_all {σ : Type} (h : Host σ) (cfgFile : String) (p : Proc σ)
    (config : Config) (hcfg : h.readConfig cfgFile p.env = .ok config) :
    (checkEach h config.Tools p).1.length = config.Tools.length ∧
    (RunVersionCheck h cfgFile p).2.ran = p.ran ++ config.Tools.map ToolConfig.Command ∧
    (((RunVersionCheck h cfgFile p).1 = none ∧
        (RunVersionCheck h cfgFile p).2.text =
          (checkEach h config.Tools p).2.text ++ "Versions OK\n") ↔
      ∀ b ∈ (checkEach h config.Tools p).1, b = true) ∧
    ((∀ b ∈ (checkEach h config.Tools p).1, b = true) →
      (RunVersionCheck h cfgFile p).1 = none ∧
      (RunVersionCheck h cfgFile p).2 = (checkEach h config.Tools p).2.print "Versions OK\n") ∧
    ((∃ b ∈ (checkEach h config.Tools p).1, b = false) →
      (RunVersionCheck h cfgFile p).1 = some 1 ∧
      (RunVersionCheck h cfgFile p).2 = (checkEach h config.Tools p).2 ∧
      (RunVersionCheck h cfgFile p).2.text = (checkEach h config.Tools p).2.text) := by
  obtain ⟨h1, h2⟩ := checkEach_ran h config.Tools p
  have hrun : RunVersionCheck h cfgFile p =
      if (checkEach h config.Tools p).1.all id = true then
        (none, (checkEach h config.Tools p).2.print "Versions OK\n")
      else (some 1, (checkEach h config.Tools p).2) := by
    simp only [RunVersionCheck, hcfg, RunVersionCheck.loop_eq, Bool.true_and]
  by_cases hall : (checkEach h config.Tools p).1.all id = true
  · rw [hrun, if_pos hall]
    have hall2 : ∀ b ∈ (checkEach h config.Tools p).1, b = true := by
      simpa [List.all_eq_true] using hall
    refine ⟨h1, h2, ?_, fun _ => ⟨rfl, rfl⟩, ?_⟩
    · exact ⟨fun _ => hall2, fun _ => ⟨rfl, Proc.text_print _ _⟩⟩
    · rintro ⟨b, hb, hfalse⟩
      rw [hall2 b hb] at hfalse
      exact absurd hfalse (by decide)
  · rw [hrun, if_neg hall]
    have hsome : ∃ b ∈ (checkEach h config.Tools p).1, b = false := by
      simpa [List.all_eq_true] using hall
    have hnot : ¬ ∀ b ∈ (checkEach h config.Tools p).1, b = true := by
      intro hall2
      obtain ⟨b, hb, hfalse⟩ := hsome
      rw [hall2 b hb] at hfalse
      exact absurd hfalse (by decide)
    refine ⟨h1, h2, ?_, fun hall2 => absurd hall2 hnot, fun _ => ⟨rfl, rfl, rfl⟩⟩
    constructor
    · rintro ⟨hnone, -⟩
      exact absurd hnone (by simp)
    · intro hall2
      exact absurd hall2 hnot

/-- C7 as amended, on a configuration whose first tool cannot be run and whose
second tool matches: both commands are run, the run exits with code 1 and
standard output holds the error diagnostic only; and on a configuration with
the matching tool only, where standard output is the summary line. -/
theorem RunVersionCheck_all_witness :
    (RunVersionCheck (exampleHost [⟨"ErrorCommand", "non_existent_command", "1.0.0"⟩,
        ⟨"FullVersion", "echo 'FullVersion 1.22.3'", "1.22.3"⟩]) "config.yaml"
        ⟨(), [], []⟩).2.ran = ["non_existent_command", "echo 'FullVersion 1.22.3'"] ∧
      (RunVersionCheck (exampleHost [⟨"ErrorCommand", "non_existent_command", "1.0.0"⟩,
        ⟨"FullVersion", "echo 'FullVersion 1.22.3'", "1.22.3"⟩]) "config.yaml"
        ⟨(), [], []⟩).1 = some 1 ∧
      (RunVersionCheck (exampleHost [⟨"ErrorCommand", "non_existent_command", "1.0.0"⟩,
        ⟨"FullVersion", "echo 'FullVersion 1.22.3'", "1.22.3"⟩]) "config.yaml"
        ⟨(), [], []⟩).2.text =
          "Error executing command for ErrorCommand: exit status 127\n" ∧
      (RunVersionCheck (exampleHost [⟨"FullVersion", "echo 'FullVersion 1.22.3'", "1.22.3"⟩])
        "config.yaml" ⟨(), [], []⟩).2.text = "Versions OK\n" :=
  ⟨(RunVersionCheck_all (exampleHost [⟨"ErrorCommand", "non_existent_command", "1.0.0"⟩,
      ⟨"FullVersion", "echo 'FullVersion 1.22.3'", "1.22.3"⟩]) "config.yaml" ⟨(), [], []⟩
      ⟨_⟩ rfl).2.1,
    ((RunVersionCheck_all (exampleHost [⟨"ErrorCommand", "non_existent_command", "1.0.0"⟩,
      ⟨"FullVersion", "echo 'FullVersion 1.22.3'", "1.22.3"⟩]) "config.yaml" ⟨(), [], []⟩
      ⟨_⟩ rfl).2.2.2.2 (by decide)).1,
    ((RunVersionCheck_all (exampleHost [⟨"ErrorCommand", "non_existent_command", "1.0.0"⟩,
      ⟨"FullVersion", "echo 'FullVersion 1.22.3'", "1.22.3"⟩]) "config.yaml" ⟨(), [], []⟩
      ⟨_⟩ rfl).2.2.2.2 (by decide)).2.2.trans (by decide),
    ((RunVersionCheck_all (exampleHost [⟨"FullVersion", "echo 'FullVersion 1.22.3'", "1.22.3"⟩])
      "config.yaml" ⟨(), [], []⟩ ⟨_⟩ rfl).2.2.1.mpr (by decide)).2.trans (by decide)⟩

/-- C7 as the specification words it fails: with a tool whose output has no
version and quotes the text `Versions OK` on a line of its own, the
configuration is read, the check fails and the run exits with code 1, and yet
the diagnostic that prints the output puts the line `Versions OK` on standard
output, as its last line. -/
theorem RunVersionCheck_quoted_summary :
    (quotingHost [⟨"notes", "cat notes.txt", "1.0"⟩]).readConfig "config.yaml" () =
        .ok ⟨[⟨"notes", "cat notes.txt", "1.0"⟩]⟩ ∧
      (∃ b ∈ (checkEach (quotingHost [⟨"notes", "cat notes.txt", "1.0"⟩])
        [⟨"notes", "cat notes.txt", "1.0"⟩] ⟨(), [], []⟩).1, b = false) ∧
      (RunVersionCheck (quotingHost [⟨"notes", "cat notes.txt", "1.0"⟩]) "config.yaml"
        ⟨(), [], []⟩).1 = some 1 ∧
      (RunVersionCheck (quotingHost [⟨"notes", "cat notes.txt", "1.0"⟩]) "config.yaml"
        ⟨(), [], []⟩).2.text =
          "notes: No version found in output\nCommand output: a\nVersions OK\n" ∧
      "Versions OK" ∈ Strings.Split (RunVersionCheck
        (quotingHost [⟨"notes", "cat notes.txt", "1.0"⟩]) "config.yaml"
        ⟨(), [], []⟩).2.text '\n' := by
  refine ⟨rfl, by decide, by decide, by decide, by decide⟩

/-- C6: with the execution of the command taken as an external result,
`checkVersion` returns true exactly when the command ran, the version
extracted from its trimmed output is not empty and the comparator accepts it
against `Expect`.  An execution error fails the check and prints the error
diagnostic only; an empty extraction fails the check, also when `Expect` is
empty and the comparator would accept. -/
theorem checkVersion_verdict {σ : Type} (h : Host σ) (tool : ToolConfig) (p : Proc σ) :
    ((checkVersion h tool p).1 = true ↔
      ∃ output, (h.sh tool.Command p.env).1 = .ok output ∧
        extractVersion tool.Command (Strings.TrimSpace output) ≠ "" ∧
        compareVersions (extractVersion tool.Command (Strings.TrimSpace output))
          tool.Expect = true) ∧
    (∀ err, (h.sh tool.Command p.env).1 = .error err →
      (checkVersion h tool p).1 = false ∧
      (checkVersion h tool p).2.stdout = p.stdout ++
        ["Error executing command for " ++ tool.Name ++ ": " ++ err ++ "\n"]) ∧
    (∀ output, (h.sh tool.Command p.env).1 = .ok output →
      extractVersion tool.Command (Strings.TrimSpace output) = "" →
      (checkVersion h tool p).1 = false ∧
      (tool.Expect = "" →
        compareVersions (extractVersion tool.Command (Strings.TrimSpace output))
          tool.Expect = true)) := by
  refine ⟨?_, ?_, ?_⟩
  · cases hsh : (h.sh tool.Command p.env).1 with
    | error err =>
      rw [checkVersion_of_error h tool p err hsh]
      simp
    | ok output =>
      rw [checkVersion_of_ok h tool p output hsh]
      by_cases he : extractVersion tool.Command (Strings.TrimSpace output) = ""
      · simp [he]
      · by_cases hc : compareVersions (extractVersion tool.Command (Strings.TrimSpace output))
            tool.Expect = true
        · simp [he, hc]
        · simp [he, hc]
  · intro err hsh
    rw [checkVersion_of_error h tool p err hsh]
    exact ⟨rfl, rfl⟩
  · intro output hsh he
    rw [checkVersion_of_ok h tool p output hsh, if_pos he]
    refine ⟨rfl, fun hexp => ?_⟩
    rw [he, hexp]
    decide

/-- C6, on three checks: a matching tool, a command that cannot be run, and
an output without a version checked against an empty expectation. -/
theorem checkVersion_verdict_witness :
    (checkVersion (exampleHost []) ⟨"FullVersion", "echo 'FullVersion 1.22.3'", "1.22.3"⟩
        ⟨(), [], []⟩).1 = true ∧
      (checkVersion (exampleHost []) ⟨"ErrorCommand", "non_existent_command", "1.0.0"⟩
        ⟨(), [], []⟩).1 = false ∧
      (checkVersion (exampleHost []) ⟨"NoVersion", "echo 'Tool has no version'", ""⟩
        ⟨(), [], []⟩).1 = false :=
  ⟨(checkVersion_verdict (exampleHost [])
      ⟨"FullVersion", "echo 'FullVersion 1.22.3'", "1.22.3"⟩ ⟨(), [], []⟩).1.mpr
      ⟨"FullVersion 1.22.3\n", rfl, by decide, by decide⟩,
    ((checkVersion_verdict (exampleHost [])
      ⟨"ErrorCommand", "non_existent_command", "1.0.0"⟩ ⟨(), [], []⟩).2.1
      "exit status 127" rfl).1,
    ((checkVersion_verdict (exampleHost [])
      ⟨"NoVersion", "echo 'Tool has no version'", ""⟩ ⟨(), [], []⟩).2.2
      "Tool has no version\n" rfl (by decide)).1⟩

end VersionCheck
